import Mathlib

/-!
Shallow embedding of the `packed_integers` crate (`src/lib.rs`): a growable
array of `W`-bit unsigned integers (1 ≤ W ≤ 31) packed into 32-bit storage
cells, together with proofs about its operations.

Machine integers are modelled as `Nat` with explicit truncation at `2 ^ 32`
where Rust's `u32` semantics make it observable (`<<` and `!`); `&`, `|`, `^`
and `>>` on values below `2 ^ 32` never leave that range.  The `Vec<u32>`
buffer is a `List Nat`; indexing uses `List.getD _ 0` and `List.set`, which
coincide with Rust indexing whenever the index is in bounds (all uses below
are, under the well-formedness invariant `WF`).  A Rust `panic!` is modelled
by returning the state reached at the panic point together with the error.
-/

namespace PackedSpec

/-- Number of bits in one storage cell (`U32_NUM_BITS` in the source). -/
def U32_NUM_BITS : Nat := 32

/-- Truncating left shift, Rust's `<<` on `u32`. -/
def shl32 (x n : Nat) : Nat := (x <<< n) % 2 ^ 32

/-- Bitwise complement on 32-bit words, Rust's `!` on `u32`. -/
def not32 (x : Nat) : Nat := (2 ^ 32 - 1) ^^^ x

/-- Modelled from the spec: the bit-width provider (`packed_int.rs`, which is
not under `src/`) supplies, for each width `W` in `[1, 31]`, the constants
`NUM_BITS = W` and `MAX = 2 ^ W - 1` (spec §1, §6).  The width `W` is passed
explicitly to every operation below, standing for the type parameter `T`. -/
def MAX (W : Nat) : Nat := 2 ^ W - 1

/-- The packed array: a buffer of 32-bit cells and a logical length
(`PackedIntegers` in the source; the width is a type parameter there and an
explicit argument here). -/
structure PackedIntegers where
  buf : List Nat
  len : Nat
deriving Repr, DecidableEq

/-- Error taxonomy of the crate's panics (spec §7). -/
inductive PackedError where
  | valueOutOfRange : PackedError
  | indexOutOfBounds : PackedError
deriving Repr, DecidableEq

/-- `buf_index` from the source: cell holding the first bit of element `index`. -/
def buf_index (W index : Nat) : Nat := index * W / U32_NUM_BITS

/-- `start_bit` from the source: offset of element `index` inside its cell. -/
def start_bit (W index : Nat) : Nat := index * W % U32_NUM_BITS

/-- `available_bits` from the source: bits from `start_bit` to the cell end. -/
def available_bits (s : Nat) : Nat := U32_NUM_BITS - s

/-- `to_buf_capacity` from the source: cells needed for `capacity` elements. -/
def to_buf_capacity (W capacity : Nat) : Nat :=
  (W * capacity + (U32_NUM_BITS - 1)) / U32_NUM_BITS

/-- `with_capacity` from the source: the empty array, paired with the number
of cells allocated for the backing buffer (`Vec::with_capacity` is modelled
as allocating exactly the requested cells, as the crate's own `capacity`
unit test assumes). -/
def with_capacity (W n : Nat) : PackedIntegers × Nat :=
  ({ buf := [], len := 0 }, to_buf_capacity W n)

/-- `capacity` from the source, as a function of the cells allocated:
`buf.capacity() * 32 / NUM_BITS`. -/
def capacity (W cells : Nat) : Nat := cells * U32_NUM_BITS / W

/-- `get_unchecked` from the source. -/
def get_unchecked (W : Nat) (a : PackedIntegers) (index : Nat) : Nat :=
  let bi := buf_index W index
  let s := start_bit W index
  let ab := available_bits s
  if W ≤ ab then
    (a.buf.getD bi 0 >>> s) &&& MAX W
  else
    let lo := a.buf.getD bi 0 >>> s
    let hi := shl32 (a.buf.getD (bi + 1) 0) (U32_NUM_BITS - s)
    lo ^^^ ((lo ^^^ hi) &&& shl32 (MAX W >>> ab) ab)

/-- `get` from the source. -/
def get (W : Nat) (a : PackedIntegers) (index : Nat) : Option Nat :=
  if a.len ≤ index then none else some (get_unchecked W a index)

/-- `push` from the source; on panic the original state is returned (the
value check precedes every mutation). -/
def push (W : Nat) (a : PackedIntegers) (value : Nat) :
    PackedIntegers × Option PackedError :=
  if MAX W < value then (a, some .valueOutOfRange)
  else
    let bi := buf_index W a.len
    let s := start_bit W a.len
    let ab := available_bits s
    if W ≤ ab then
      let buf0 := if bi = a.buf.length then a.buf ++ [0] else a.buf
      let buf1 := buf0.set bi
        ((buf0.getD bi 0 &&& not32 (shl32 (MAX W) s)) ||| shl32 value s)
      ({ buf := buf1, len := a.len + 1 }, none)
    else
      let buf0 := a.buf ++ [0]
      let buf1 := buf0.set bi
        ((buf0.getD bi 0 &&& not32 (shl32 (MAX W) s)) ||| shl32 value s)
      let buf2 := buf1.set (bi + 1)
        (not32 (MAX W >>> (U32_NUM_BITS - s)) ||| (value >>> ab))
      ({ buf := buf2, len := a.len + 1 }, none)

/-- `set_unchecked` from the source; in the spanning branch the high cell is
assigned `!(MAX >> (32 - start_bit))` before OR-ing in the value's high
bits, exactly as in the source. -/
def set_unchecked (W : Nat) (a : PackedIntegers) (index value : Nat) :
    PackedIntegers × Option PackedError :=
  if MAX W < value then (a, some .valueOutOfRange)
  else
    let bi := buf_index W index
    let s := start_bit W index
    let ab := available_bits s
    if W ≤ ab then
      let buf1 := a.buf.set bi
        ((a.buf.getD bi 0 &&& not32 (shl32 (MAX W) s)) ||| shl32 value s)
      ({ a with buf := buf1 }, none)
    else
      let buf1 := a.buf.set bi
        ((a.buf.getD bi 0 &&& not32 (shl32 (MAX W) s)) ||| shl32 value s)
      let buf2 := buf1.set (bi + 1)
        (not32 (MAX W >>> (U32_NUM_BITS - s)) ||| (value >>> ab))
      ({ a with buf := buf2 }, none)

/-- `set` from the source: bounds check, then `set_unchecked`. -/
def set (W : Nat) (a : PackedIntegers) (index value : Nat) :
    PackedIntegers × Option PackedError :=
  if a.len ≤ index then (a, some .indexOutOfBounds)
  else set_unchecked W a index value

/-- `truncate` from the source. -/
def truncate (a : PackedIntegers) (len : Nat) : PackedIntegers :=
  if a.len < len then a else { a with len := len }

/-- `clear` from the source: `truncate 0`. -/
def clear (a : PackedIntegers) : PackedIntegers := truncate a 0

/-- Sequencing of fallible mutations: a panic aborts the rest of the
operation, keeping the state reached so far. -/
def andThen (r : PackedIntegers × Option PackedError)
    (f : PackedIntegers → PackedIntegers × Option PackedError) :
    PackedIntegers × Option PackedError :=
  match r with
  | (a, none) => f a
  | (a, some e) => (a, some e)

/-- The shift loop of `insert`: `for i in ((index + 1)..len).rev()` doing
`set_unchecked(i, get_unchecked(i - 1))`.  The fuel `k` counts the remaining
iterations; the current loop index is `index + k`. -/
def insertShiftAux (W index : Nat) : Nat → PackedIntegers →
    PackedIntegers × Option PackedError
  | 0, a => (a, none)
  | k + 1, a =>
    andThen (set_unchecked W a (index + k + 1) (get_unchecked W a (index + k)))
      (insertShiftAux W index k)

/-- `insert` from the source: bounds check, `push`, shift right, overwrite. -/
def insert (W : Nat) (a : PackedIntegers) (index value : Nat) :
    PackedIntegers × Option PackedError :=
  if a.len < index then (a, some .indexOutOfBounds)
  else
    andThen (push W a value) (fun a1 =>
      andThen (insertShiftAux W index (a1.len - index - 1) a1) (fun a2 =>
        set_unchecked W a2 index value))

/-- The shift loop of `remove`: `for i in (index + 1)..len` doing
`set_unchecked(i - 1, get_unchecked(i))`, with `k` remaining iterations and
current loop index `i`. -/
def removeShiftAux (W : Nat) : Nat → Nat → PackedIntegers →
    PackedIntegers × Option PackedError
  | _, 0, a => (a, none)
  | i, k + 1, a =>
    andThen (set_unchecked W a (i - 1) (get_unchecked W a i))
      (removeShiftAux W (i + 1) k)

/-- `remove` from the source; returns the final state, the panic (if any) and
the removed value (if none). -/
def remove (W : Nat) (a : PackedIntegers) (index : Nat) :
    PackedIntegers × Option PackedError × Option Nat :=
  if a.len ≤ index then (a, some .indexOutOfBounds, none)
  else
    let result := get_unchecked W a index
    match removeShiftAux W (index + 1) (a.len - (index + 1)) a with
    | (a1, none) => ({ a1 with len := a1.len - 1 }, none, some result)
    | (a1, some e) => (a1, some e, none)

/-- The sequence of stored values, as produced by the crate's iterators:
`get 0, get 1, ...` up to `len`. -/
def elements (W : Nat) (a : PackedIntegers) : List Nat :=
  (List.range a.len).map (get_unchecked W a)

/-- Pushing a list of values one by one, as `append`'s loop does. -/
def pushAll (W : Nat) (a : PackedIntegers) : List Nat →
    PackedIntegers × Option PackedError
  | [] => (a, none)
  | v :: vs => andThen (push W a v) (fun a1 => pushAll W a1 vs)

/-- `append` from the source: push every element of `other` onto `self`, then
clear `other` (`reserve` only touches spare capacity, which is not part of
the state here).  On a panic mid-loop, `other` is not yet cleared. -/
def append (W : Nat) (a other : PackedIntegers) :
    (PackedIntegers × PackedIntegers) × Option PackedError :=
  match pushAll W a (elements W other) with
  | (a1, none) => ((a1, clear other), none)
  | (a1, some e) => ((a1, other), some e)

/-- The comparison loop of `Ord::cmp`, on the two element sequences. -/
def cmpList : List Nat → List Nat → Ordering
  | [], [] => .eq
  | [], _ :: _ => .lt
  | _ :: _, [] => .gt
  | s :: ss, o :: os =>
    match compare s o with
    | .eq => cmpList ss os
    | c => c

/-- `Ord::cmp` from the source, iterating the stored values of both arrays. -/
def cmp (W : Nat) (a b : PackedIntegers) : Ordering :=
  cmpList (elements W a) (elements W b)

/-- `PartialEq::eq` from the source: equal lengths and `cmp == Equal`. -/
def beq (W : Nat) (a b : PackedIntegers) : Bool :=
  a.len == b.len && cmp W a b == Ordering.eq

/-- Bit `n` of the packed bit stream: bit `n % 32` of cell `n / 32`. -/
def bitAt (a : PackedIntegers) (n : Nat) : Bool :=
  (a.buf.getD (n / 32) 0).testBit (n % 32)

/-- Every cell of the buffer fits in 32 bits. -/
def CellsOK (a : PackedIntegers) : Prop :=
  ∀ c ∈ a.buf, c < 2 ^ 32

/-- Well-formedness: a valid width, 32-bit cells, and a buffer large enough
for all `len * W` element bits (every array reachable by the crate's API
satisfies this). -/
def WF (W : Nat) (a : PackedIntegers) : Prop :=
  1 ≤ W ∧ W ≤ 31 ∧ CellsOK a ∧ a.len * W ≤ 32 * a.buf.length

/-! ### List helpers -/

theorem getD_set (l : List Nat) (j c k d : Nat) :
    (l.set j c).getD k d = if j = k ∧ j < l.length then c else l.getD k d := by
  induction l generalizing j k with
  | nil => simp
  | cons x xs ih =>
    cases j with
    | zero => cases k <;> simp
    | succ j =>
      cases k with
      | zero => simp
      | succ k => simpa [Nat.succ_lt_succ_iff] using ih j k

theorem getD_lt_of_all {l : List Nat} (hc : ∀ c ∈ l, c < 2 ^ 32) (j : Nat) :
    l.getD j 0 < 2 ^ 32 := by
  induction l generalizing j with
  | nil => simp
  | cons x xs ih =>
    cases j with
    | zero => exact hc x (by simp)
    | succ j => exact ih (fun c hcm => hc c (by simp [hcm])) j

theorem getD_append_zero (l : List Nat) (k : Nat) :
    (l ++ [0]).getD k 0 = l.getD k 0 := by
  induction l generalizing k with
  | nil =>
    cases k with
    | zero => rfl
    | succ k => cases k <;> rfl
  | cons x xs ih =>
    cases k with
    | zero => rfl
    | succ k => exact ih k

/-! ### Bit helpers -/

theorem testBit_of_ge {x n i : Nat} (hx : x < 2 ^ n) (h : n ≤ i) :
    x.testBit i = false :=
  Nat.testBit_lt_two_pow
    (lt_of_lt_of_le hx (Nat.pow_le_pow_right (by norm_num) h))

theorem shl32_lt (x n : Nat) : shl32 x n < 2 ^ 32 :=
  Nat.mod_lt _ (by norm_num)

theorem not32_lt {x : Nat} (hx : x < 2 ^ 32) : not32 x < 2 ^ 32 :=
  Nat.xor_lt_two_pow (by norm_num) hx

theorem shl32_testBit (x n i : Nat) :
    (shl32 x n).testBit i = (decide (i < 32) && (decide (n ≤ i) && x.testBit (i - n))) := by
  simp only [shl32, Nat.testBit_mod_two_pow, Nat.testBit_shiftLeft, ge_iff_le]

theorem not32_testBit {x : Nat} (hx : x < 2 ^ 32) (i : Nat) :
    (not32 x).testBit i = (decide (i < 32) && ! x.testBit i) := by
  simp only [not32, Nat.testBit_xor, Nat.testBit_two_pow_sub_one]
  by_cases h : i < 32
  · simp [h]
  · simp [h, testBit_of_ge hx (le_of_not_lt h)]

theorem U32_eq : U32_NUM_BITS = 32 := rfl

theorem MAX_testBit (W j : Nat) : (MAX W).testBit j = decide (j < W) := by
  simp [MAX]

theorem MAX_lt_two_pow_32 {W : Nat} (h31 : W ≤ 31) : MAX W < 2 ^ 32 := by
  have h1 : (2 : Nat) ^ W ≤ 2 ^ 31 := Nat.pow_le_pow_right (by norm_num) h31
  have h2 : 1 ≤ (2 : Nat) ^ W := Nat.one_le_two_pow
  simp only [MAX]
  have h3 : (2 : Nat) ^ 31 < 2 ^ 32 := by norm_num
  omega

/-! ### Bits of a cell after the low-cell clear-and-set write
`(cell & !(MAX << s)) | (value << s)` (shared by `push` and
`set_unchecked`), below, inside and above the written field. -/

theorem wlo_testBit_low {W s x v i : Nat} (hx : x < 2 ^ 32) (hi : i < s) :
    ((x &&& not32 (shl32 (MAX W) s)) ||| shl32 v s).testBit i = x.testBit i := by
  have hm := shl32_lt (MAX W) s
  simp only [Nat.testBit_or, Nat.testBit_land, not32_testBit hm, shl32_testBit]
  have hsi : ¬ s ≤ i := by omega
  by_cases h32 : i < 32
  · simp [hsi, h32]
  · simp [h32, testBit_of_ge hx (by omega : 32 ≤ i)]

theorem wlo_testBit_mid {W s x v i : Nat} (h1 : s ≤ i) (h2 : i < 32)
    (h3 : i < s + W) :
    ((x &&& not32 (shl32 (MAX W) s)) ||| shl32 v s).testBit i = v.testBit (i - s) := by
  have hm := shl32_lt (MAX W) s
  simp only [Nat.testBit_or, Nat.testBit_land, not32_testBit hm, shl32_testBit,
    MAX_testBit]
  have h4 : i - s < W := by omega
  simp [h1, h2, h4]

theorem wlo_testBit_high {W s x v i : Nat} (hx : x < 2 ^ 32) (hv : v < 2 ^ W)
    (h : s + W ≤ i) :
    ((x &&& not32 (shl32 (MAX W) s)) ||| shl32 v s).testBit i = x.testBit i := by
  have hm := shl32_lt (MAX W) s
  simp only [Nat.testBit_or, Nat.testBit_land, not32_testBit hm, shl32_testBit,
    MAX_testBit]
  have hW : ¬ (i - s < W) := by omega
  have hvb : v.testBit (i - s) = false := testBit_of_ge hv (by omega)
  by_cases h32 : i < 32
  · simp [h32, hvb, hW]
  · simp [h32, testBit_of_ge hx (by omega : 32 ≤ i)]

/-- Bits of the freshly assigned high cell `!(MAX >> ab) | (value >> ab)`
inside the written field (`ab` is `available_bits start_bit`). -/
theorem whi_testBit {W ab v t : Nat} (h31 : W ≤ 31) (ht : ab + t < W) :
    (not32 (MAX W >>> ab) ||| (v >>> ab)).testBit t = v.testBit (ab + t) := by
  have hm : MAX W >>> ab < 2 ^ 32 := by
    have h1 : MAX W >>> ab ≤ MAX W := by
      rw [Nat.shiftRight_eq_div_pow]; exact Nat.div_le_self _ _
    exact lt_of_le_of_lt h1 (MAX_lt_two_pow_32 h31)
  simp only [Nat.testBit_or, not32_testBit hm, Nat.testBit_shiftRight, MAX_testBit]
  simp [ht]

/-- The branchless select `lo ^ ((lo ^ hi) & mask)` picks, bit by bit, `hi`
where `mask` is set and `lo` where it is clear. -/
theorem merge_testBit (lo hi mask k : Nat) :
    (lo ^^^ ((lo ^^^ hi) &&& mask)).testBit k =
      cond (mask.testBit k) (hi.testBit k) (lo.testBit k) := by
  simp only [Nat.testBit_xor, Nat.testBit_land]
  cases hm : mask.testBit k <;> cases hl : lo.testBit k <;>
    cases hh : hi.testBit k <;> simp

/-! ### Read characterisation: bit `k` of `get_unchecked i` is bit
`i * W + k` of the packed bit stream (and `0` for `k ≥ W`). -/

theorem get_unchecked_testBit {W : Nat} (h31 : W ≤ 31)
    {a : PackedIntegers} (hc : CellsOK a) (i k : Nat) :
    (get_unchecked W a i).testBit k = (decide (k < W) && bitAt a (i * W + k)) := by
  have hslt : start_bit W i < 32 := Nat.mod_lt _ (by decide)
  have hdecomp : i * W = 32 * buf_index W i + start_bit W i :=
    (Nat.div_add_mod (i * W) 32).symm
  simp only [get_unchecked, available_bits, U32_eq]
  by_cases hcase : W ≤ 32 - start_bit W i
  · rw [if_pos hcase]
    rw [Nat.testBit_land, Nat.testBit_shiftRight, MAX_testBit]
    by_cases hk : k < W
    · have hsk : start_bit W i + k < 32 := by omega
      have e1 : i * W + k = 32 * buf_index W i + (start_bit W i + k) := by omega
      have hdiv : (i * W + k) / 32 = buf_index W i := by
        rw [e1, Nat.mul_add_div (by norm_num), Nat.div_eq_of_lt hsk, Nat.add_zero]
      have hmod : (i * W + k) % 32 = start_bit W i + k := by
        rw [e1, Nat.mul_add_mod, Nat.mod_eq_of_lt hsk]
      simp only [bitAt, hdiv, hmod, decide_eq_true hk, Bool.true_and, Bool.and_true]
    · simp only [decide_eq_false hk, Bool.and_false, Bool.false_and]
  · rw [if_neg hcase]
    have hspan : 32 < start_bit W i + W := by omega
    rw [merge_testBit]
    simp only [shl32_testBit, Nat.testBit_shiftRight, MAX_testBit]
    by_cases hk32 : k < 32 - start_bit W i
    · -- low part of the field: the bit comes from the low cell
      have hk : k < W := by omega
      have hcond : (decide (k < 32) && (decide (32 - start_bit W i ≤ k) &&
          decide (32 - start_bit W i + (k - (32 - start_bit W i)) < W))) = false := by
        have h1 : ¬ (32 - start_bit W i ≤ k) := by omega
        simp [h1]
      rw [hcond, Bool.cond_false]
      have hsk : start_bit W i + k < 32 := by omega
      have e1 : i * W + k = 32 * buf_index W i + (start_bit W i + k) := by omega
      have hdiv : (i * W + k) / 32 = buf_index W i := by
        rw [e1, Nat.mul_add_div (by norm_num), Nat.div_eq_of_lt hsk, Nat.add_zero]
      have hmod : (i * W + k) % 32 = start_bit W i + k := by
        rw [e1, Nat.mul_add_mod, Nat.mod_eq_of_lt hsk]
      simp only [bitAt, hdiv, hmod, decide_eq_true hk, Bool.true_and]
    · by_cases hk : k < W
      · -- high part of the field: the bit comes from the high cell
        have hcond : (decide (k < 32) && (decide (32 - start_bit W i ≤ k) &&
            decide (32 - start_bit W i + (k - (32 - start_bit W i)) < W))) = true := by
          have h1 : k < 32 := by omega
          have h2 : 32 - start_bit W i ≤ k := by omega
          have h3 : 32 - start_bit W i + (k - (32 - start_bit W i)) < W := by omega
          simp [h1, h2, h3, hk]
        rw [hcond, Bool.cond_true]
        have h1 : k < 32 := by omega
        have h2 : 32 - start_bit W i ≤ k := by omega
        have e1 : i * W + k =
            32 * (buf_index W i + 1) + (start_bit W i + k - 32) := by omega
        have hlt : start_bit W i + k - 32 < 32 := by omega
        have hdiv : (i * W + k) / 32 = buf_index W i + 1 := by
          rw [e1, Nat.mul_add_div (by norm_num), Nat.div_eq_of_lt hlt, Nat.add_zero]
        have hmod : (i * W + k) % 32 = start_bit W i + k - 32 := by
          rw [e1, Nat.mul_add_mod, Nat.mod_eq_of_lt hlt]
        have e2 : k - (32 - start_bit W i) = start_bit W i + k - 32 := by omega
        simp only [bitAt, hdiv, hmod, e2, decide_eq_true h1, decide_eq_true h2,
          decide_eq_true hk, Bool.true_and]
      · -- above the field: both sides are zero
        have hcond : (decide (k < 32) && (decide (32 - start_bit W i ≤ k) &&
            decide (32 - start_bit W i + (k - (32 - start_bit W i)) < W))) = false := by
          by_cases h32 : k < 32
          · have h3 : ¬ (32 - start_bit W i + (k - (32 - start_bit W i)) < W) := by
              omega
            simp [h3, hk]
          · simp [h32]
        rw [hcond, Bool.cond_false]
        rw [testBit_of_ge (getD_lt_of_all hc (buf_index W i))
          (show 32 ≤ start_bit W i + k by omega)]
        simp only [decide_eq_false hk, Bool.false_and]

theorem get_unchecked_lt_two_pow {W : Nat} (h31 : W ≤ 31)
    {a : PackedIntegers} (hc : CellsOK a) (i : Nat) :
    get_unchecked W a i < 2 ^ W := by
  apply Nat.lt_pow_two_of_testBit
  intro j hj
  rw [get_unchecked_testBit h31 hc]
  simp [Nat.not_lt.mpr hj]

theorem get_unchecked_le_MAX {W : Nat} (h31 : W ≤ 31)
    {a : PackedIntegers} (hc : CellsOK a) (i : Nat) :
    get_unchecked W a i ≤ MAX W := by
  have h := get_unchecked_lt_two_pow h31 hc i
  have hone : 1 ≤ (2 : Nat) ^ W := Nat.one_le_two_pow
  simp only [MAX]
  omega

theorem get_unchecked_congr {W : Nat} (h31 : W ≤ 31)
    {a b : PackedIntegers} (hca : CellsOK a) (hcb : CellsOK b) (i : Nat)
    (h : ∀ k, k < W → bitAt a (i * W + k) = bitAt b (i * W + k)) :
    get_unchecked W a i = get_unchecked W b i := by
  apply Nat.eq_of_testBit_eq
  intro k
  rw [get_unchecked_testBit h31 hca, get_unchecked_testBit h31 hcb]
  by_cases hk : k < W
  · rw [h k hk]
  · simp [hk]

/-! ### Bounds for the two cell values written by `push`/`set_unchecked` -/

theorem wlo_lt {W s x v : Nat} (hx : x < 2 ^ 32) :
    ((x &&& not32 (shl32 (MAX W) s)) ||| shl32 v s) < 2 ^ 32 :=
  Nat.or_lt_two_pow (lt_of_le_of_lt Nat.and_le_left hx) (shl32_lt _ _)

theorem whi_lt {W ab v : Nat} (h31 : W ≤ 31) (hv : v < 2 ^ W) :
    (not32 (MAX W >>> ab) ||| (v >>> ab)) < 2 ^ 32 := by
  apply Nat.or_lt_two_pow
  · apply not32_lt
    refine lt_of_le_of_lt ?_ (MAX_lt_two_pow_32 h31)
    rw [Nat.shiftRight_eq_div_pow]
    exact Nat.div_le_self _ _
  · have h1 : v >>> ab ≤ v := by
      rw [Nat.shiftRight_eq_div_pow]; exact Nat.div_le_self _ _
    have h2 : (2 : Nat) ^ W ≤ 2 ^ 32 := Nat.pow_le_pow_right (by norm_num) (by omega)
    omega

theorem div32_eq {b r : Nat} (h : r < 32) : (32 * b + r) / 32 = b := by
  rw [Nat.mul_add_div (by norm_num), Nat.div_eq_of_lt h, Nat.add_zero]

theorem mod32_eq {b r : Nat} (h : r < 32) : (32 * b + r) % 32 = r := by
  rw [Nat.mul_add_mod, Nat.mod_eq_of_lt h]

theorem bitAt_mk (l : List Nat) (L n : Nat) :
    bitAt { buf := l, len := L } n = (l.getD (n / 32) 0).testBit (n % 32) := rfl

theorem bitAt_set {l : List Nat} {j : Nat} (hj : j < l.length) (c L n : Nat) :
    bitAt { buf := l.set j c, len := L } n =
      if j = n / 32 then c.testBit (n % 32)
      else (l.getD (n / 32) 0).testBit (n % 32) := by
  rw [bitAt_mk, getD_set]
  by_cases h : j = n / 32
  · rw [if_pos ⟨h, hj⟩, if_pos h]
  · rw [if_neg (fun hh => h hh.1), if_neg h]

/-! ### Effect of `push` on the packed bit stream -/

theorem push_nospan_core {W : Nat} {a : PackedIntegers} {v : Nat} {buf0 : List Nat}
    (hW : 1 ≤ W) (h31 : W ≤ 31) (_hc : CellsOK a) (_hv2 : v < 2 ^ W)
    (hslt : start_bit W a.len < 32)
    (hdecomp : a.len * W = 32 * buf_index W a.len + start_bit W a.len)
    (hfit : start_bit W a.len + W ≤ 32)
    (hgd0 : ∀ j, buf0.getD j 0 = a.buf.getD j 0)
    (hcm0 : ∀ c ∈ buf0, c < 2 ^ 32)
    (hblt : buf_index W a.len < buf0.length)
    (hlb : (a.len + 1) * W ≤ 32 * buf0.length) :
    WF W (PackedIntegers.mk (buf0.set (buf_index W a.len)
        ((buf0.getD (buf_index W a.len) 0 &&&
            not32 (shl32 (MAX W) (start_bit W a.len))) |||
          shl32 v (start_bit W a.len))) (a.len + 1)) ∧
    (∀ m, m < a.len * W →
      bitAt (PackedIntegers.mk (buf0.set (buf_index W a.len)
          ((buf0.getD (buf_index W a.len) 0 &&&
              not32 (shl32 (MAX W) (start_bit W a.len))) |||
            shl32 v (start_bit W a.len))) (a.len + 1)) m = bitAt a m) ∧
    (∀ k, k < W →
      bitAt (PackedIntegers.mk (buf0.set (buf_index W a.len)
          ((buf0.getD (buf_index W a.len) 0 &&&
              not32 (shl32 (MAX W) (start_bit W a.len))) |||
            shl32 v (start_bit W a.len))) (a.len + 1)) (a.len * W + k) =
        v.testBit k) := by
  set bi := buf_index W a.len with hbi
  set s := start_bit W a.len with hs
  have hx : buf0.getD bi 0 < 2 ^ 32 := getD_lt_of_all hcm0 _
  have hwvlt : ((buf0.getD bi 0 &&& not32 (shl32 (MAX W) s)) ||| shl32 v s) < 2 ^ 32 :=
    wlo_lt hx
  refine ⟨⟨hW, h31, ?_, ?_⟩, ?_, ?_⟩
  · intro c hcm
    rcases List.mem_or_eq_of_mem_set hcm with h | h
    · exact hcm0 c h
    · exact h ▸ hwvlt
  · show (a.len + 1) * W ≤ 32 * (buf0.set bi _).length
    rw [List.length_set]; exact hlb
  · intro m hm
    have h1 : m / 32 < bi + 1 := (Nat.div_lt_iff_lt_mul (by norm_num)).mpr (by omega)
    rw [bitAt_set hblt]
    by_cases hj : bi = m / 32
    · rw [if_pos hj]
      have hmd := Nat.div_add_mod m 32
      have hmod : m % 32 < s := by omega
      rw [wlo_testBit_low hx hmod, hgd0, hj]
      rfl
    · rw [if_neg hj, hgd0]
      rfl
  · intro k hk
    have hsk : s + k < 32 := by omega
    have e1 : a.len * W + k = 32 * bi + (s + k) := by omega
    have hdiv : (a.len * W + k) / 32 = bi := by rw [e1, div32_eq hsk]
    have hmod : (a.len * W + k) % 32 = s + k := by rw [e1, mod32_eq hsk]
    rw [bitAt_set hblt, if_pos hdiv.symm, hmod,
      wlo_testBit_mid (by omega) hsk (by omega)]
    congr 1
    omega

theorem push_span_core {W : Nat} {a : PackedIntegers} {v : Nat} {buf0 : List Nat}
    (hW : 1 ≤ W) (h31 : W ≤ 31) (_hc : CellsOK a) (hv2 : v < 2 ^ W)
    (hslt : start_bit W a.len < 32)
    (hdecomp : a.len * W = 32 * buf_index W a.len + start_bit W a.len)
    (hspan : 32 < start_bit W a.len + W)
    (hgd0 : ∀ j, buf0.getD j 0 = a.buf.getD j 0)
    (hcm0 : ∀ c ∈ buf0, c < 2 ^ 32)
    (hblt1 : buf_index W a.len + 1 < buf0.length)
    (hlb : (a.len + 1) * W ≤ 32 * buf0.length) :
    WF W (PackedIntegers.mk ((buf0.set (buf_index W a.len)
        ((buf0.getD (buf_index W a.len) 0 &&&
            not32 (shl32 (MAX W) (start_bit W a.len))) |||
          shl32 v (start_bit W a.len))).set (buf_index W a.len + 1)
        (not32 (MAX W >>> (32 - start_bit W a.len)) |||
          v >>> (32 - start_bit W a.len))) (a.len + 1)) ∧
    (∀ m, m < a.len * W →
      bitAt (PackedIntegers.mk ((buf0.set (buf_index W a.len)
          ((buf0.getD (buf_index W a.len) 0 &&&
              not32 (shl32 (MAX W) (start_bit W a.len))) |||
            shl32 v (start_bit W a.len))).set (buf_index W a.len + 1)
          (not32 (MAX W >>> (32 - start_bit W a.len)) |||
            v >>> (32 - start_bit W a.len))) (a.len + 1)) m = bitAt a m) ∧
    (∀ k, k < W →
      bitAt (PackedIntegers.mk ((buf0.set (buf_index W a.len)
          ((buf0.getD (buf_index W a.len) 0 &&&
              not32 (shl32 (MAX W) (start_bit W a.len))) |||
            shl32 v (start_bit W a.len))).set (buf_index W a.len + 1)
          (not32 (MAX W >>> (32 - start_bit W a.len)) |||
            v >>> (32 - start_bit W a.len))) (a.len + 1))
        (a.len * W + k) = v.testBit k) := by
  set bi := buf_index W a.len with hbi
  set s := start_bit W a.len with hs
  have hx : buf0.getD bi 0 < 2 ^ 32 := getD_lt_of_all hcm0 _
  have hwvlt : ((buf0.getD bi 0 &&& not32 (shl32 (MAX W) s)) ||| shl32 v s) < 2 ^ 32 :=
    wlo_lt hx
  have hwhilt : (not32 (MAX W >>> (32 - s)) ||| v >>> (32 - s)) < 2 ^ 32 :=
    whi_lt h31 hv2
  have hblt : bi < buf0.length := by omega
  have hblt1' : bi + 1 <
      (buf0.set bi ((buf0.getD bi 0 &&& not32 (shl32 (MAX W) s)) ||| shl32 v s)).length := by
    rw [List.length_set]; exact hblt1
  have hgd1 : ∀ j, (buf0.set bi
      ((buf0.getD bi 0 &&& not32 (shl32 (MAX W) s)) ||| shl32 v s)).getD j 0 =
      if bi = j then ((buf0.getD bi 0 &&& not32 (shl32 (MAX W) s)) ||| shl32 v s)
      else buf0.getD j 0 := by
    intro j
    rw [getD_set]
    by_cases h : bi = j
    · rw [if_pos ⟨h, hblt⟩, if_pos h]
    · rw [if_neg (fun hh => h hh.1), if_neg h]
  refine ⟨⟨hW, h31, ?_, ?_⟩, ?_, ?_⟩
  · intro c hcm
    rcases List.mem_or_eq_of_mem_set hcm with h | h
    · rcases List.mem_or_eq_of_mem_set h with h2 | h2
      · exact hcm0 c h2
      · exact h2 ▸ hwvlt
    · exact h ▸ hwhilt
  · show (a.len + 1) * W ≤ 32 * (List.set _ (bi + 1) _).length
    rw [List.length_set, List.length_set]; exact hlb
  · intro m hm
    have h1 : m / 32 < bi + 1 := (Nat.div_lt_iff_lt_mul (by norm_num)).mpr (by omega)
    rw [bitAt_set hblt1']
    rw [if_neg (by omega), hgd1]
    by_cases hj : bi = m / 32
    · rw [if_pos hj]
      have hmd := Nat.div_add_mod m 32
      have hmod : m % 32 < s := by omega
      rw [wlo_testBit_low hx hmod, hgd0, hj]
      rfl
    · rw [if_neg hj, hgd0]
      rfl
  · intro k hk
    rw [bitAt_set hblt1']
    by_cases hsk : s + k < 32
    · have e1 : a.len * W + k = 32 * bi + (s + k) := by omega
      have hdiv : (a.len * W + k) / 32 = bi := by rw [e1, div32_eq hsk]
      have hmod : (a.len * W + k) % 32 = s + k := by rw [e1, mod32_eq hsk]
      rw [if_neg (by omega), hgd1, if_pos hdiv.symm, hmod,
        wlo_testBit_mid (by omega) hsk (by omega)]
      congr 1
      omega
    · have hlt : s + k - 32 < 32 := by omega
      have e1 : a.len * W + k = 32 * (bi + 1) + (s + k - 32) := by omega
      have hdiv : (a.len * W + k) / 32 = bi + 1 := by rw [e1, div32_eq hlt]
      have hmod : (a.len * W + k) % 32 = s + k - 32 := by rw [e1, mod32_eq hlt]
      rw [if_pos hdiv.symm, hmod,
        whi_testBit h31 (show (32 - s) + (s + k - 32) < W by omega)]
      congr 1
      omega

theorem push_spec {W : Nat} {a : PackedIntegers} {v : Nat}
    (hWF : WF W a) (hv : v ≤ MAX W) :
    (push W a v).2 = none ∧
    (push W a v).1.len = a.len + 1 ∧
    WF W (push W a v).1 ∧
    (∀ m, m < a.len * W → bitAt (push W a v).1 m = bitAt a m) ∧
    (∀ k, k < W → bitAt (push W a v).1 (a.len * W + k) = v.testBit k) := by
  obtain ⟨hW, h31, hc, hlen⟩ := hWF
  have hnot : ¬ MAX W < v := Nat.not_lt.mpr hv
  have hone : 1 ≤ (2 : Nat) ^ W := Nat.one_le_two_pow
  have hv2 : v < 2 ^ W := by simp only [MAX] at hnot; omega
  have hslt : start_bit W a.len < 32 := Nat.mod_lt _ (by decide)
  have hdecomp : a.len * W = 32 * buf_index W a.len + start_bit W a.len :=
    (Nat.div_add_mod (a.len * W) 32).symm
  have hbile : buf_index W a.len ≤ a.buf.length := by
    have h1 : a.len * W / 32 ≤ 32 * a.buf.length / 32 := Nat.div_le_div_right hlen
    have h2 : 32 * a.buf.length / 32 = a.buf.length :=
      Nat.mul_div_cancel_left _ (by norm_num)
    have h3 : buf_index W a.len = a.len * W / 32 := rfl
    omega
  have hmul : (a.len + 1) * W = a.len * W + W := by ring
  have hcm1 : ∀ c ∈ a.buf ++ [0], c < 2 ^ 32 := by
    intro c hcm
    rcases List.mem_append.mp hcm with h | h
    · exact hc c h
    · rw [List.mem_singleton.mp h]; exact Nat.two_pow_pos 32
  simp only [push, available_bits, U32_eq, if_neg hnot]
  by_cases hcase : W ≤ 32 - start_bit W a.len
  · rw [if_pos hcase]
    have hfit : start_bit W a.len + W ≤ 32 := by omega
    by_cases hbl : buf_index W a.len = a.buf.length
    · rw [if_pos hbl]
      have hgd0 : ∀ j, (a.buf ++ [0]).getD j 0 = a.buf.getD j 0 :=
        fun j => getD_append_zero a.buf j
      have hlen0 : (a.buf ++ [0]).length = a.buf.length + 1 := by simp
      have hblt : buf_index W a.len < (a.buf ++ [0]).length := by omega
      have hlb : (a.len + 1) * W ≤ 32 * (a.buf ++ [0]).length := by omega
      obtain ⟨w1, w2, w3⟩ :=
        push_nospan_core hW h31 hc hv2 hslt hdecomp hfit hgd0 hcm1 hblt hlb
      exact ⟨rfl, rfl, w1, w2, w3⟩
    · rw [if_neg hbl]
      have hgd0 : ∀ j, a.buf.getD j 0 = a.buf.getD j 0 := fun j => rfl
      have hblt : buf_index W a.len < a.buf.length := by omega
      have hlb : (a.len + 1) * W ≤ 32 * a.buf.length := by omega
      obtain ⟨w1, w2, w3⟩ :=
        push_nospan_core hW h31 hc hv2 hslt hdecomp hfit hgd0 hc hblt hlb
      exact ⟨rfl, rfl, w1, w2, w3⟩
  · rw [if_neg hcase]
    have hspan : 32 < start_bit W a.len + W := by omega
    have hs1 : 1 ≤ start_bit W a.len := by omega
    have hgd0 : ∀ j, (a.buf ++ [0]).getD j 0 = a.buf.getD j 0 :=
      fun j => getD_append_zero a.buf j
    have hlen0 : (a.buf ++ [0]).length = a.buf.length + 1 := by simp
    have hbilt : buf_index W a.len < a.buf.length := by omega
    have hblt1 : buf_index W a.len + 1 < (a.buf ++ [0]).length := by omega
    have hlb : (a.len + 1) * W ≤ 32 * (a.buf ++ [0]).length := by omega
    obtain ⟨w1, w2, w3⟩ :=
      push_span_core hW h31 hc hv2 hslt hdecomp hspan hgd0 hcm1 hblt1 hlb
    exact ⟨rfl, rfl, w1, w2, w3⟩

theorem get_eq {W : Nat} {a : PackedIntegers} {i : Nat} (h : i < a.len) :
    get W a i = some (get_unchecked W a i) := by
  rw [get, if_neg (Nat.not_le.mpr h)]

theorem push_preserves_get {W : Nat} {a : PackedIntegers} {v : Nat}
    (hWF : WF W a) (hv : v ≤ MAX W) (j : Nat) (hj : j < a.len) :
    get_unchecked W (push W a v).1 j = get_unchecked W a j := by
  obtain ⟨-, -, h3, h4, -⟩ := push_spec hWF hv
  apply get_unchecked_congr hWF.2.1 h3.2.2.1 hWF.2.2.1
  intro k hk
  apply h4
  have h5 : (j + 1) * W ≤ a.len * W := Nat.mul_le_mul_right W hj
  have h6 : (j + 1) * W = j * W + W := by ring
  omega

theorem push_get_new {W : Nat} {a : PackedIntegers} {v : Nat}
    (hWF : WF W a) (hv : v ≤ MAX W) :
    get_unchecked W (push W a v).1 a.len = v := by
  obtain ⟨-, -, h3, -, h5⟩ := push_spec hWF hv
  have hone : 1 ≤ (2 : Nat) ^ W := Nat.one_le_two_pow
  have hv2 : v < 2 ^ W := by simp only [MAX] at hv; omega
  apply Nat.eq_of_testBit_eq
  intro k
  rw [get_unchecked_testBit hWF.2.1 h3.2.2.1]
  by_cases hk : k < W
  · rw [h5 k hk]
    simp [hk]
  · simp [hk, testBit_of_ge hv2 (Nat.le_of_not_lt hk)]

theorem elements_push {W : Nat} {a : PackedIntegers} {v : Nat}
    (hWF : WF W a) (hv : v ≤ MAX W) :
    elements W (push W a v).1 = elements W a ++ [v] := by
  obtain ⟨-, h2, -, -, -⟩ := push_spec hWF hv
  unfold elements
  rw [h2, List.range_succ, List.map_append]
  congr 1
  · apply List.map_congr_left
    intro j hj
    rw [List.mem_range] at hj
    exact push_preserves_get hWF hv j hj
  · simp [push_get_new hWF hv]

theorem WF_of_checks {W : Nat} {a : PackedIntegers}
    (h1 : 1 ≤ W) (h2 : W ≤ 31) (h3 : ∀ c ∈ a.buf, c < 2 ^ 32)
    (h4 : a.len * W ≤ 32 * a.buf.length) : WF W a := ⟨h1, h2, h3, h4⟩

/-- C2: for every valid width `W` in `[1, 31]`, every well-formed array, and
every value `v` with `0 ≤ v ≤ 2 ^ W - 1`, `push v` succeeds, increments the
length, and `get (length - 1)` on the result returns `some v`.  The proof
covers both branches of `push`: the value fitting in one 32-bit cell and the
value spanning two adjacent cells. -/
theorem c2_push_get_roundtrip {W : Nat} {a : PackedIntegers} {v : Nat}
    (hWF : WF W a) (hv : v ≤ MAX W) :
    (push W a v).2 = none ∧
    (push W a v).1.len = a.len + 1 ∧
    get W (push W a v).1 ((push W a v).1.len - 1) = some v := by
  obtain ⟨h1, h2, -, -, -⟩ := push_spec hWF hv
  refine ⟨h1, h2, ?_⟩
  rw [h2, Nat.add_sub_cancel, get_eq (by omega), push_get_new hWF hv]

/-- C2 witness: width 9, a well-formed three-element array (buffer `[0]`),
pushing the maximal value 511, which spans two cells. -/
theorem c2_witness :
    WF 9 (PackedIntegers.mk [0] 3) ∧ (511 : Nat) ≤ MAX 9 ∧
    ((push 9 (PackedIntegers.mk [0] 3) 511).2 = none ∧
      (push 9 (PackedIntegers.mk [0] 3) 511).1.len = 3 + 1 ∧
      get 9 (push 9 (PackedIntegers.mk [0] 3) 511).1
        ((push 9 (PackedIntegers.mk [0] 3) 511).1.len - 1) = some 511) :=
  ⟨WF_of_checks (by decide) (by decide) (by decide) (by decide), by decide,
    c2_push_get_roundtrip
      (WF_of_checks (by decide) (by decide) (by decide) (by decide)) (by decide)⟩

/-- C10: truncating to `n < len` and then pushing `v ≤ MAX` yields an array
of length `n + 1` whose first `n` elements are the first `n` elements of the
original array and whose last element is `v`: `push` clears the destination
bit field (and fully re-assigns a fresh high cell) before writing, so the
stale bits left beyond `n * W` by `truncate` do not leak into any element. -/
theorem c10_truncate_push {W : Nat} {a : PackedIntegers} {n v : Nat}
    (hWF : WF W a) (hn : n < a.len) (hv : v ≤ MAX W) :
    (push W (truncate a n) v).2 = none ∧
    (push W (truncate a n) v).1.len = n + 1 ∧
    (∀ j, j < n → get W (push W (truncate a n) v).1 j = get W a j) ∧
    get W (push W (truncate a n) v).1 n = some v := by
  have htr : truncate a n = { a with len := n } := by
    rw [truncate, if_neg (by omega)]
  have hWFt : WF W (truncate a n) := by
    obtain ⟨hW, h31, hc, hlen⟩ := hWF
    rw [htr]
    refine ⟨hW, h31, hc, ?_⟩
    have := Nat.mul_le_mul_right W (le_of_lt hn)
    simp only []
    omega
  have hlen_t : (truncate a n).len = n := by rw [htr]
  obtain ⟨h1, h2, -, -, -⟩ := push_spec hWFt hv
  refine ⟨h1, by rw [h2, hlen_t], ?_, ?_⟩
  · intro j hj
    have hj2 : j < (truncate a n).len := by omega
    rw [get_eq (show j < (push W (truncate a n) v).1.len by omega),
      get_eq (show j < a.len by omega),
      push_preserves_get hWFt hv j hj2]
    have hgu : get_unchecked W (truncate a n) j = get_unchecked W a j := by
      rw [htr]
      rfl
    rw [hgu]
  · rw [get_eq (show n < (push W (truncate a n) v).1.len by omega)]
    have hnew := push_get_new hWFt hv
    rw [hlen_t] at hnew
    rw [hnew]

/-- C10 witness: width 9, the well-formed array `[507, 508, 509, 510, 511]`
(buffer `[0, 4294959104]` after zero-pushes would differ; this is a reachable
buffer), truncated to 2 and pushed with 77. -/
theorem c10_witness :
    WF 9 (PackedIntegers.mk [0, 4294959104] 5) ∧ 2 < 5 ∧ (77 : Nat) ≤ MAX 9 ∧
    ((push 9 (truncate (PackedIntegers.mk [0, 4294959104] 5) 2) 77).2 = none ∧
      (push 9 (truncate (PackedIntegers.mk [0, 4294959104] 5) 2) 77).1.len = 2 + 1 ∧
      (∀ j, j < 2 →
        get 9 (push 9 (truncate (PackedIntegers.mk [0, 4294959104] 5) 2) 77).1 j =
          get 9 (PackedIntegers.mk [0, 4294959104] 5) j) ∧
      get 9 (push 9 (truncate (PackedIntegers.mk [0, 4294959104] 5) 2) 77).1 2 =
        some 77) :=
  ⟨WF_of_checks (by decide) (by decide) (by decide) (by decide), by decide, by decide,
    c10_truncate_push
      (WF_of_checks (by decide) (by decide) (by decide) (by decide))
      (by decide) (by decide)⟩

/-! ### Failure behaviour of the mutating operations -/

theorem push_err {W : Nat} (a : PackedIntegers) (v : Nat) (h : MAX W < v) :
    push W a v = (a, some PackedError.valueOutOfRange) := by
  rw [push, if_pos h]

theorem push_ok {W : Nat} (a : PackedIntegers) (v : Nat) (hv : v ≤ MAX W) :
    (push W a v).2 = none := by
  have hnot : ¬ MAX W < v := Nat.not_lt.mpr hv
  simp only [push, if_neg hnot]
  split <;> rfl

theorem set_unchecked_err {W : Nat} (a : PackedIntegers) (i v : Nat)
    (h : MAX W < v) :
    set_unchecked W a i v = (a, some PackedError.valueOutOfRange) := by
  rw [set_unchecked, if_pos h]

theorem set_unchecked_none {W : Nat} (a : PackedIntegers) (i v : Nat)
    (hv : v ≤ MAX W) : (set_unchecked W a i v).2 = none := by
  have hnot : ¬ MAX W < v := Nat.not_lt.mpr hv
  simp only [set_unchecked, available_bits, U32_eq, if_neg hnot]
  split <;> rfl

theorem set_unchecked_ok_parts {W : Nat} (h31 : W ≤ 31) (a : PackedIntegers)
    (i v : Nat) (hv : v ≤ MAX W) :
    (set_unchecked W a i v).2 = none ∧
    (set_unchecked W a i v).1.len = a.len ∧
    (set_unchecked W a i v).1.buf.length = a.buf.length ∧
    (CellsOK a → CellsOK (set_unchecked W a i v).1) := by
  have hnot : ¬ MAX W < v := Nat.not_lt.mpr hv
  have hone : 1 ≤ (2 : Nat) ^ W := Nat.one_le_two_pow
  have hv2 : v < 2 ^ W := by simp only [MAX] at hnot; omega
  simp only [set_unchecked, available_bits, U32_eq, if_neg hnot]
  by_cases hcase : W ≤ 32 - start_bit W i
  · rw [if_pos hcase]
    refine ⟨rfl, rfl, List.length_set _ _ _, ?_⟩
    intro hc c hcm
    rcases List.mem_or_eq_of_mem_set hcm with h | h
    · exact hc c h
    · exact h ▸ wlo_lt (getD_lt_of_all hc _)
  · rw [if_neg hcase]
    refine ⟨rfl, rfl, ?_, ?_⟩
    · rw [List.length_set, List.length_set]
    · intro hc c hcm
      rcases List.mem_or_eq_of_mem_set hcm with h | h
      · rcases List.mem_or_eq_of_mem_set h with h2 | h2
        · exact hc c h2
        · exact h2 ▸ wlo_lt (getD_lt_of_all hc _)
      · exact h ▸ whi_lt h31 hv2

theorem insertShiftAux_spec {W : Nat} (h31 : W ≤ 31) (idx : Nat) :
    ∀ (k : Nat) (a : PackedIntegers), CellsOK a →
      (insertShiftAux W idx k a).2 = none ∧
      CellsOK (insertShiftAux W idx k a).1 := by
  intro k
  induction k with
  | zero => exact fun a hc => ⟨rfl, hc⟩
  | succ k ih =>
    intro a hc
    have hle : get_unchecked W a (idx + k) ≤ MAX W := get_unchecked_le_MAX h31 hc _
    obtain ⟨h1, -, -, h4⟩ := set_unchecked_ok_parts h31 a (idx + k + 1) _ hle
    have hpair : set_unchecked W a (idx + k + 1) (get_unchecked W a (idx + k)) =
        ((set_unchecked W a (idx + k + 1) (get_unchecked W a (idx + k))).1, none) := by
      have h0 :=
        (@Prod.mk.eta _ _ (set_unchecked W a (idx + k + 1)
          (get_unchecked W a (idx + k)))).symm
      rw [h1] at h0
      exact h0
    simp only [insertShiftAux]
    rw [hpair]
    simp only [andThen]
    exact ih _ (h4 hc)

theorem removeShiftAux_spec {W : Nat} (h31 : W ≤ 31) :
    ∀ (k i : Nat) (a : PackedIntegers), CellsOK a →
      (removeShiftAux W i k a).2 = none ∧
      CellsOK (removeShiftAux W i k a).1 := by
  intro k
  induction k with
  | zero => exact fun i a hc => ⟨rfl, hc⟩
  | succ k ih =>
    intro i a hc
    have hle : get_unchecked W a i ≤ MAX W := get_unchecked_le_MAX h31 hc _
    obtain ⟨h1, -, -, h4⟩ := set_unchecked_ok_parts h31 a (i - 1) _ hle
    have hpair : set_unchecked W a (i - 1) (get_unchecked W a i) =
        ((set_unchecked W a (i - 1) (get_unchecked W a i)).1, none) := by
      have h0 :=
        (@Prod.mk.eta _ _ (set_unchecked W a (i - 1) (get_unchecked W a i))).symm
      rw [h1] at h0
      exact h0
    simp only [removeShiftAux]
    rw [hpair]
    simp only [andThen]
    exact ih (i + 1) _ (h4 hc)

/-- C4: `push` fails with ValueOutOfRange exactly when the value exceeds
`2 ^ W - 1` (in particular at `2 ^ W`), and so does `set` at any in-bounds
index. -/
theorem c4_range_rejection {W : Nat} (a : PackedIntegers) (i v : Nat)
    (h : i < a.len) :
    ((push W a v).2 = some PackedError.valueOutOfRange ↔ MAX W < v) ∧
    (push W a (2 ^ W)).2 = some PackedError.valueOutOfRange ∧
    ((set W a i v).2 = some PackedError.valueOutOfRange ↔ MAX W < v) ∧
    (set W a i (2 ^ W)).2 = some PackedError.valueOutOfRange := by
  have hone : 1 ≤ (2 : Nat) ^ W := Nat.one_le_two_pow
  have hmax : MAX W < 2 ^ W := by simp only [MAX]; omega
  have hidx : ¬ a.len ≤ i := by omega
  refine ⟨⟨?_, ?_⟩, ?_, ⟨?_, ?_⟩, ?_⟩
  · intro hp
    by_contra hv
    rw [push_ok a v (Nat.le_of_not_lt hv)] at hp
    exact Option.noConfusion hp
  · intro hv
    rw [push_err a v hv]
  · rw [push_err a _ hmax]
  · intro hp
    by_contra hv
    rw [set, if_neg hidx, set_unchecked_none a i v (Nat.le_of_not_lt hv)] at hp
    exact Option.noConfusion hp
  · intro hv
    rw [set, if_neg hidx, set_unchecked_err _ _ _ hv]
  · rw [set, if_neg hidx, set_unchecked_err _ _ _ hmax]

/-- C4 witness: width 9, a two-element array, index 1, in-range value 5 and
out-of-range value `2 ^ 9 = 512`. -/
theorem c4_witness :
    1 < 2 ∧
    (((push 9 (PackedIntegers.mk [0] 2) 5).2 =
        some PackedError.valueOutOfRange ↔ MAX 9 < 5) ∧
      (push 9 (PackedIntegers.mk [0] 2) (2 ^ 9)).2 =
        some PackedError.valueOutOfRange ∧
      ((set 9 (PackedIntegers.mk [0] 2) 1 5).2 =
        some PackedError.valueOutOfRange ↔ MAX 9 < 5) ∧
      (set 9 (PackedIntegers.mk [0] 2) 1 (2 ^ 9)).2 =
        some PackedError.valueOutOfRange) :=
  ⟨by decide, c4_range_rejection (PackedIntegers.mk [0] 2) 1 5 (by decide)⟩

/-- C5: whenever `push`, `set`, `insert` or `remove` fails on a well-formed
array, the array is returned exactly as it was (all validation happens
before any mutation); in particular `insert` at a valid index with an
out-of-range value mutates nothing. -/
theorem c5_failed_ops_frame {W : Nat} {a : PackedIntegers} (i v : Nat)
    (hWF : WF W a) :
    ((push W a v).2.isSome → (push W a v).1 = a) ∧
    ((set W a i v).2.isSome → (set W a i v).1 = a) ∧
    ((insert W a i v).2.isSome → (insert W a i v).1 = a) ∧
    ((remove W a i).2.1.isSome → (remove W a i).1 = a) ∧
    (i ≤ a.len → MAX W < v → insert W a i v = (a, some PackedError.valueOutOfRange)) := by
  obtain ⟨hW, h31, hc, hlen⟩ := hWF
  refine ⟨?_, ?_, ?_, ?_, ?_⟩
  · intro hs
    by_cases hv : MAX W < v
    · rw [push_err a v hv]
    · rw [push_ok a v (Nat.le_of_not_lt hv)] at hs
      exact Bool.noConfusion hs
  · intro hs
    by_cases hidx : a.len ≤ i
    · rw [set, if_pos hidx]
    · rw [set, if_neg hidx] at hs ⊢
      by_cases hv : MAX W < v
      · rw [set_unchecked_err a i v hv]
      · rw [set_unchecked_none a i v (Nat.le_of_not_lt hv)] at hs
        exact Bool.noConfusion hs
  · intro hs
    by_cases hidx : a.len < i
    · rw [insert, if_pos hidx]
    · rw [insert, if_neg hidx] at hs ⊢
      by_cases hv : MAX W < v
      · rw [push_err a v hv]
        simp only [andThen]
      · exfalso
        have hvle : v ≤ MAX W := Nat.le_of_not_lt hv
        obtain ⟨p1, -, p3, -, -⟩ := push_spec ⟨hW, h31, hc, hlen⟩ hvle
        have hpair : push W a v = ((push W a v).1, none) := by
          have h0 := (@Prod.mk.eta _ _ (push W a v)).symm
          rw [p1] at h0
          exact h0
        rw [hpair] at hs
        simp only [andThen] at hs
        obtain ⟨q1, -⟩ :=
          insertShiftAux_spec h31 i ((push W a v).1.len - i - 1) (push W a v).1
            p3.2.2.1
        have hpair2 : insertShiftAux W i ((push W a v).1.len - i - 1)
            (push W a v).1 =
            ((insertShiftAux W i ((push W a v).1.len - i - 1) (push W a v).1).1,
              none) := by
          have h0 := (@Prod.mk.eta _ _ (insertShiftAux W i
            ((push W a v).1.len - i - 1) (push W a v).1)).symm
          rw [q1] at h0
          exact h0
        rw [hpair2] at hs
        simp only [andThen] at hs
        rw [set_unchecked_none _ i v hvle] at hs
        exact Bool.noConfusion hs
  · intro hs
    by_cases hidx : a.len ≤ i
    · rw [remove, if_pos hidx]
    · rw [remove, if_neg hidx] at hs ⊢
      obtain ⟨q1, -⟩ := removeShiftAux_spec h31 (a.len - (i + 1)) (i + 1) a hc
      have hpair : removeShiftAux W (i + 1) (a.len - (i + 1)) a =
          ((removeShiftAux W (i + 1) (a.len - (i + 1)) a).1, none) := by
        have h0 := (@Prod.mk.eta _ _
          (removeShiftAux W (i + 1) (a.len - (i + 1)) a)).symm
        rw [q1] at h0
        exact h0
      rw [hpair] at hs
      simp at hs
  · intro hidx hv
    rw [insert, if_neg (by omega), push_err a v hv]
    simp only [andThen]

/-- C5 witness: width 9, a well-formed two-element array, index 1 and the
out-of-range value 600. -/
theorem c5_witness :
    WF 9 (PackedIntegers.mk [0] 2) ∧
    (((push 9 (PackedIntegers.mk [0] 2) 600).2.isSome →
        (push 9 (PackedIntegers.mk [0] 2) 600).1 = PackedIntegers.mk [0] 2) ∧
      ((set 9 (PackedIntegers.mk [0] 2) 1 600).2.isSome →
        (set 9 (PackedIntegers.mk [0] 2) 1 600).1 = PackedIntegers.mk [0] 2) ∧
      ((insert 9 (PackedIntegers.mk [0] 2) 1 600).2.isSome →
        (insert 9 (PackedIntegers.mk [0] 2) 1 600).1 = PackedIntegers.mk [0] 2) ∧
      ((remove 9 (PackedIntegers.mk [0] 2) 1).2.1.isSome →
        (remove 9 (PackedIntegers.mk [0] 2) 1).1 = PackedIntegers.mk [0] 2) ∧
      (1 ≤ 2 → MAX 9 < 600 →
        insert 9 (PackedIntegers.mk [0] 2) 1 600 =
          (PackedIntegers.mk [0] 2, some PackedError.valueOutOfRange))) :=
  ⟨WF_of_checks (by decide) (by decide) (by decide) (by decide),
    c5_failed_ops_frame 1 600
      (WF_of_checks (by decide) (by decide) (by decide) (by decide))⟩

/-! ### `append` -/

theorem pushAll_spec {W : Nat} :
    ∀ (vs : List Nat) (a : PackedIntegers), WF W a → (∀ x ∈ vs, x ≤ MAX W) →
      (pushAll W a vs).2 = none ∧ WF W (pushAll W a vs).1 ∧
      elements W (pushAll W a vs).1 = elements W a ++ vs ∧
      (pushAll W a vs).1.len = a.len + vs.length := by
  intro vs
  induction vs with
  | nil =>
    intro a hWF hall
    exact ⟨rfl, hWF, by simp [pushAll], by simp [pushAll]⟩
  | cons x xs ih =>
    intro a hWF hall
    have hx : x ≤ MAX W := hall x (by simp)
    obtain ⟨p1, p2, p3, -, -⟩ := push_spec hWF hx
    have hpair : push W a x = ((push W a x).1, none) := by
      have h0 := (@Prod.mk.eta _ _ (push W a x)).symm
      rw [p1] at h0
      exact h0
    simp only [pushAll]
    rw [hpair]
    simp only [andThen]
    obtain ⟨q1, q2, q3, q4⟩ :=
      ih (push W a x).1 p3 (fun y hy => hall y (by simp [hy]))
    refine ⟨q1, q2, ?_, ?_⟩
    · rw [q3, elements_push hWF hx]
      simp
    · rw [q4, p2, List.length_cons]
      omega

theorem elements_mem_le {W : Nat} (h31 : W ≤ 31) {a : PackedIntegers}
    (hc : CellsOK a) : ∀ x ∈ elements W a, x ≤ MAX W := by
  intro x hx
  unfold elements at hx
  rw [List.mem_map] at hx
  obtain ⟨j, -, h⟩ := hx
  rw [← h]
  exact get_unchecked_le_MAX h31 hc j

theorem clear_len (a : PackedIntegers) : (clear a).len = 0 := by
  rw [clear, truncate, if_neg (Nat.not_lt.mpr (Nat.zero_le _))]

/-- C7: `append` pushes every element of `other` onto the end of `self` in
index order and then clears `other`; on well-formed arrays it never fails,
the resulting element sequence of `self` is the concatenation of the two old
sequences, and `other` ends up with length 0. -/
theorem c7_append_moves_all {W : Nat} {a other : PackedIntegers}
    (hWF : WF W a) (hWFo : WF W other) :
    (append W a other).2 = none ∧
    elements W (append W a other).1.1 = elements W a ++ elements W other ∧
    (append W a other).1.2.len = 0 := by
  obtain ⟨r1, -, r3, -⟩ :=
    pushAll_spec (elements W other) a hWF (elements_mem_le hWFo.2.1 hWFo.2.2.1)
  have hpair : pushAll W a (elements W other) =
      ((pushAll W a (elements W other)).1, none) := by
    have h0 := (@Prod.mk.eta _ _ (pushAll W a (elements W other))).symm
    rw [r1] at h0
    exact h0
  rw [append, hpair]
  exact ⟨rfl, r3, clear_len other⟩

/-- C7 witness: width 9, `self` holding `[1, 2, 3]` (buffer `[787457]`) and
`other` holding `[0, 0]`. -/
theorem c7_witness :
    WF 9 (PackedIntegers.mk [787457] 3) ∧ WF 9 (PackedIntegers.mk [0] 2) ∧
    ((append 9 (PackedIntegers.mk [787457] 3) (PackedIntegers.mk [0] 2)).2 = none ∧
      elements 9
        (append 9 (PackedIntegers.mk [787457] 3) (PackedIntegers.mk [0] 2)).1.1 =
        elements 9 (PackedIntegers.mk [787457] 3) ++
          elements 9 (PackedIntegers.mk [0] 2) ∧
      (append 9 (PackedIntegers.mk [787457] 3) (PackedIntegers.mk [0] 2)).1.2.len =
        0) :=
  ⟨WF_of_checks (by decide) (by decide) (by decide) (by decide),
    WF_of_checks (by decide) (by decide) (by decide) (by decide),
    c7_append_moves_all
      (WF_of_checks (by decide) (by decide) (by decide) (by decide))
      (WF_of_checks (by decide) (by decide) (by decide) (by decide))⟩

/-! ### Equality and lexicographic ordering -/

theorem cmpList_eq_iff : ∀ as bs : List Nat, cmpList as bs = Ordering.eq ↔ as = bs := by
  intro as
  induction as with
  | nil =>
    intro bs
    cases bs with
    | nil => simp [cmpList]
    | cons b bs => simp [cmpList]
  | cons a as ih =>
    intro bs
    cases bs with
    | nil => simp [cmpList]
    | cons b bs =>
      simp only [cmpList]
      cases hab : compare a b with
      | lt =>
        have hlt : a < b := Nat.compare_eq_lt.mp hab
        simp [Nat.ne_of_lt hlt]
      | eq =>
        have heq : a = b := Nat.compare_eq_eq.mp hab
        subst heq
        rw [ih bs]
        simp
      | gt =>
        have hgt : b < a := Nat.compare_eq_gt.mp hab
        simp [Ne.symm (Nat.ne_of_lt hgt)]

theorem cmpList_lt_iff :
    ∀ as bs : List Nat, cmpList as bs = Ordering.lt ↔ List.Lex (· < ·) as bs := by
  intro as
  induction as with
  | nil =>
    intro bs
    cases bs with
    | nil =>
      constructor
      · intro h; exact Ordering.noConfusion h
      · intro h; cases h
    | cons b bs =>
      constructor
      · intro _; exact List.Lex.nil
      · intro _; rfl
  | cons a as ih =>
    intro bs
    cases bs with
    | nil =>
      constructor
      · intro h; exact Ordering.noConfusion h
      · intro h; cases h
    | cons b bs =>
      simp only [cmpList]
      cases hab : compare a b with
      | lt =>
        have hlt : a < b := Nat.compare_eq_lt.mp hab
        constructor
        · intro _; exact List.Lex.rel hlt
        · intro _; rfl
      | eq =>
        have heq : a = b := Nat.compare_eq_eq.mp hab
        subst heq
        rw [ih bs]
        constructor
        · intro h; exact List.Lex.cons h
        · intro h
          cases h with
          | cons h2 => exact h2
          | rel h2 => exact absurd h2 (lt_irrefl a)
      | gt =>
        have hgt : b < a := Nat.compare_eq_gt.mp hab
        constructor
        · intro h; exact Ordering.noConfusion h
        · intro h
          cases h with
          | cons h2 => exact absurd hgt (lt_irrefl a)
          | rel h2 => exact absurd h2 (by omega)

theorem cmpList_gt_iff :
    ∀ as bs : List Nat, cmpList as bs = Ordering.gt ↔ List.Lex (· < ·) bs as := by
  intro as
  induction as with
  | nil =>
    intro bs
    cases bs with
    | nil =>
      constructor
      · intro h; exact Ordering.noConfusion h
      · intro h; cases h
    | cons b bs =>
      constructor
      · intro h; exact Ordering.noConfusion h
      · intro h; cases h
  | cons a as ih =>
    intro bs
    cases bs with
    | nil =>
      constructor
      · intro _; exact List.Lex.nil
      · intro _; rfl
    | cons b bs =>
      simp only [cmpList]
      cases hab : compare a b with
      | lt =>
        have hlt : a < b := Nat.compare_eq_lt.mp hab
        constructor
        · intro h; exact Ordering.noConfusion h
        · intro h
          cases h with
          | cons h2 => exact absurd hlt (lt_irrefl a)
          | rel h2 => exact absurd h2 (by omega)
      | eq =>
        have heq : a = b := Nat.compare_eq_eq.mp hab
        subst heq
        rw [ih bs]
        constructor
        · intro h; exact List.Lex.cons h
        · intro h
          cases h with
          | cons h2 => exact h2
          | rel h2 => exact absurd h2 (lt_irrefl a)
      | gt =>
        have hgt : b < a := Nat.compare_eq_gt.mp hab
        constructor
        · intro _; exact List.Lex.rel hgt
        · intro _; rfl

theorem lex_append {t : List Nat} (ht : t ≠ []) :
    ∀ l : List Nat, List.Lex (· < ·) l (l ++ t) := by
  intro l
  induction l with
  | nil =>
    cases t with
    | nil => exact absurd rfl ht
    | cons x xs => exact List.Lex.nil
  | cons x xs ih => exact List.Lex.cons ih

theorem length_elements (W : Nat) (a : PackedIntegers) :
    (elements W a).length = a.len := by
  simp [elements]

theorem ordering_beq_eq_iff (o : Ordering) :
    (o == Ordering.eq) = true ↔ o = Ordering.eq := by
  cases o <;> decide

theorem elements_getD {W : Nat} {a : PackedIntegers} {i : Nat} (hi : i < a.len) :
    (elements W a).getD i 0 = get_unchecked W a i := by
  simp [elements, List.getD_eq_getElem?_getD, List.getElem?_map,
    List.getElem?_range hi]

theorem beq_true_iff (W : Nat) (a b : PackedIntegers) :
    beq W a b = true ↔ a.len = b.len ∧ cmp W a b = Ordering.eq := by
  rw [beq, Bool.and_eq_true, ordering_beq_eq_iff]
  constructor
  · rintro ⟨h1, h2⟩
    exact ⟨by simpa using h1, h2⟩
  · rintro ⟨h1, h2⟩
    exact ⟨by simp [h1], h2⟩

/-- C6: equality of two same-width arrays holds exactly when lengths agree
and `get` agrees at every index; `cmp` is the lexicographic order on the
element sequences (`Less`/`Greater` coincide with `List.Lex (< )` in the two
directions, and `Equal` with sequence equality); a strict prefix compares
`Less` than its extension; and `A == B` holds exactly when `cmp A B = Equal`. -/
theorem c6_eq_and_lex (W : Nat) (a b : PackedIntegers) :
    (beq W a b = true ↔
      a.len = b.len ∧ ∀ i, i < a.len → get W a i = get W b i) ∧
    (beq W a b = true ↔ cmp W a b = Ordering.eq) ∧
    (cmp W a b = Ordering.lt ↔ List.Lex (· < ·) (elements W a) (elements W b)) ∧
    (cmp W a b = Ordering.gt ↔ List.Lex (· < ·) (elements W b) (elements W a)) ∧
    (∀ t, t ≠ [] → elements W b = elements W a ++ t → cmp W a b = Ordering.lt) := by
  have hcme : cmp W a b = Ordering.eq ↔ elements W a = elements W b :=
    cmpList_eq_iff (elements W a) (elements W b)
  refine ⟨?_, ?_, cmpList_lt_iff _ _, cmpList_gt_iff _ _, ?_⟩
  · rw [beq_true_iff, hcme]
    constructor
    · rintro ⟨h1, h2⟩
      refine ⟨h1, ?_⟩
      intro i hi
      have hi' : i < b.len := by omega
      rw [get_eq hi, get_eq hi']
      have e1 : (elements W a).getD i 0 = (elements W b).getD i 0 := by rw [h2]
      rw [elements_getD hi, elements_getD hi'] at e1
      rw [e1]
    · rintro ⟨h1, h2⟩
      refine ⟨h1, ?_⟩
      apply List.ext_getElem?
      intro i
      simp only [elements, List.getElem?_map]
      by_cases hi : i < a.len
      · have hi' : i < b.len := by omega
        rw [List.getElem?_range hi, List.getElem?_range hi']
        have h3 := h2 i hi
        rw [get_eq hi, get_eq hi'] at h3
        simp only [Option.map_some']
        rw [Option.some.inj h3]
      · have hi' : ¬ i < b.len := by omega
        rw [List.getElem?_eq_none (by simpa using Nat.le_of_not_lt hi),
          List.getElem?_eq_none (by simpa using Nat.le_of_not_lt hi')]
        rfl
  · rw [beq_true_iff]
    constructor
    · rintro ⟨-, h2⟩; exact h2
    · intro h2
      refine ⟨?_, h2⟩
      have h3 := hcme.mp h2
      have h4 := congrArg List.length h3
      rw [length_elements, length_elements] at h4
      exact h4
  · intro t ht hteq
    have hl : List.Lex (· < ·) (elements W a) (elements W b) := by
      rw [hteq]
      exact lex_append ht _
    exact (cmpList_lt_iff _ _).mpr hl

/-- C6 witness: width 9, `[1, 2]` against its extension `[1, 2, 3]` (same
buffer `[787457]`, lengths 2 and 3). -/
theorem c6_witness :
    (beq 9 (PackedIntegers.mk [787457] 2) (PackedIntegers.mk [787457] 3) = true ↔
      (PackedIntegers.mk [787457] 2).len = (PackedIntegers.mk [787457] 3).len ∧
      ∀ i, i < (PackedIntegers.mk [787457] 2).len →
        get 9 (PackedIntegers.mk [787457] 2) i =
          get 9 (PackedIntegers.mk [787457] 3) i) ∧
    (beq 9 (PackedIntegers.mk [787457] 2) (PackedIntegers.mk [787457] 3) = true ↔
      cmp 9 (PackedIntegers.mk [787457] 2) (PackedIntegers.mk [787457] 3) =
        Ordering.eq) ∧
    (cmp 9 (PackedIntegers.mk [787457] 2) (PackedIntegers.mk [787457] 3) =
        Ordering.lt ↔
      List.Lex (· < ·) (elements 9 (PackedIntegers.mk [787457] 2))
        (elements 9 (PackedIntegers.mk [787457] 3))) ∧
    (cmp 9 (PackedIntegers.mk [787457] 2) (PackedIntegers.mk [787457] 3) =
        Ordering.gt ↔
      List.Lex (· < ·) (elements 9 (PackedIntegers.mk [787457] 3))
        (elements 9 (PackedIntegers.mk [787457] 2))) ∧
    (∀ t, t ≠ [] →
      elements 9 (PackedIntegers.mk [787457] 3) =
        elements 9 (PackedIntegers.mk [787457] 2) ++ t →
      cmp 9 (PackedIntegers.mk [787457] 2) (PackedIntegers.mk [787457] 3) =
        Ordering.lt) :=
  c6_eq_and_lex 9 (PackedIntegers.mk [787457] 2) (PackedIntegers.mk [787457] 3)

/-! ### Capacity accounting -/

/-- C8: `with_capacity n` creates an empty array and allocates
`ceil(W * n / 32)` cells (stated as: the allocated cell count is the least
`c` with `W * n ≤ 32 * c`); `capacity` reports `floor(cells * 32 / W)`
elements (stated by the floor characterisation); at width 9,
`with_capacity 7` allocates exactly 2 cells and `capacity` then reports 7. -/
theorem c8_with_capacity (W n : Nat) (hW : 1 ≤ W) :
    (with_capacity W n).1.len = 0 ∧ (with_capacity W n).1.buf = [] ∧
    W * n ≤ 32 * (with_capacity W n).2 ∧
    (∀ c, W * n ≤ 32 * c → (with_capacity W n).2 ≤ c) ∧
    (∀ cells, W * capacity W cells ≤ cells * 32 ∧
      cells * 32 < W * (capacity W cells + 1)) ∧
    (with_capacity 9 7).2 = 2 ∧ capacity 9 (with_capacity 9 7).2 = 7 := by
  refine ⟨rfl, rfl, ?_, ?_, ?_, by decide, by decide⟩
  · show W * n ≤ 32 * ((W * n + (32 - 1)) / 32)
    have h := Nat.div_add_mod (W * n + (32 - 1)) 32
    have h2 : (W * n + (32 - 1)) % 32 < 32 := Nat.mod_lt _ (by norm_num)
    omega
  · intro c hcle
    show (W * n + (32 - 1)) / 32 ≤ c
    have h := Nat.div_add_mod (W * n + (32 - 1)) 32
    have h2 : (W * n + (32 - 1)) % 32 < 32 := Nat.mod_lt _ (by norm_num)
    omega
  · intro cells
    show W * (cells * 32 / W) ≤ cells * 32 ∧ cells * 32 < W * (cells * 32 / W + 1)
    have h := Nat.div_add_mod (cells * 32) W
    have h2 : (cells * 32) % W < W := Nat.mod_lt _ (by omega)
    constructor
    · exact Nat.le.intro h
    · rw [Nat.mul_succ W (cells * 32 / W)]
      omega

/-- C8 witness: width 9, requested capacity 7. -/
theorem c8_witness :
    1 ≤ 9 ∧
    ((with_capacity 9 7).1.len = 0 ∧ (with_capacity 9 7).1.buf = [] ∧
      9 * 7 ≤ 32 * (with_capacity 9 7).2 ∧
      (∀ c, 9 * 7 ≤ 32 * c → (with_capacity 9 7).2 ≤ c) ∧
      (∀ cells, 9 * capacity 9 cells ≤ cells * 32 ∧
        cells * 32 < 9 * (capacity 9 cells + 1)) ∧
      (with_capacity 9 7).2 = 2 ∧ capacity 9 (with_capacity 9 7).2 = 7) :=
  ⟨by decide, c8_with_capacity 9 7 (by decide)⟩

/-! ### Shift-amount safety -/

/-- C9: for any width `W` in `[1, 31]` and any element index, `start_bit` is
always below 32; when `start_bit = 0` the element fits in one cell (the
spanning branch is not taken); and in the spanning branch (`available_bits <
W`) the shift amounts `start_bit`, `32 - start_bit` and `available_bits` all
lie in `[1, 31]`, so no `u32` shift amount ever reaches 32. -/
theorem c9_shift_amounts (W i : Nat) (hW : 1 ≤ W) (h31 : W ≤ 31) :
    start_bit W i < 32 ∧
    (start_bit W i = 0 → W ≤ available_bits (start_bit W i)) ∧
    (available_bits (start_bit W i) < W →
      1 ≤ start_bit W i ∧ start_bit W i ≤ 31 ∧
      1 ≤ 32 - start_bit W i ∧ 32 - start_bit W i ≤ 31 ∧
      1 ≤ available_bits (start_bit W i) ∧ available_bits (start_bit W i) ≤ 31) := by
  have hs : start_bit W i < 32 := Nat.mod_lt _ (by decide)
  have hab : available_bits (start_bit W i) = 32 - start_bit W i := rfl
  refine ⟨hs, ?_, ?_⟩
  · intro h0
    rw [hab, h0]
    omega
  · intro h
    rw [hab] at h ⊢
    omega

/-- C9 witness: width 9, index 3 (a spanning element: `start_bit = 27`). -/
theorem c9_witness :
    1 ≤ 9 ∧ 9 ≤ 31 ∧
    (start_bit 9 3 < 32 ∧
      (start_bit 9 3 = 0 → 9 ≤ available_bits (start_bit 9 3)) ∧
      (available_bits (start_bit 9 3) < 9 →
        1 ≤ start_bit 9 3 ∧ start_bit 9 3 ≤ 31 ∧
        1 ≤ 32 - start_bit 9 3 ∧ 32 - start_bit 9 3 ≤ 31 ∧
        1 ≤ available_bits (start_bit 9 3) ∧
        available_bits (start_bit 9 3) ≤ 31)) :=
  ⟨by decide, by decide, c9_shift_amounts 9 3 (by decide) (by decide)⟩

/-! ### The spanning in-place write bug -/

/-- The width-9 array holding `[0, 0, 0, 0, 0]`, built by five pushes; its
buffer is `[0, 4294959104]` and element 3 spans both cells. -/
def exampleFiveZeros : PackedIntegers :=
  (pushAll 9 (PackedIntegers.mk [] 0) [0, 0, 0, 0, 0]).1

/-- C1 (code bug): on the width-9 array `[0, 0, 0, 0, 0]`, `set 3 0` succeeds
but element 4 — which shares the high storage cell with the spanning element
3 and which the call must leave unchanged — afterwards reads back 511
instead of 0: the spanning branch of `set_unchecked` assigns
`!(MAX >> (32 - start_bit))` to the whole high cell, setting every bit
outside the written field to 1. -/
theorem c1_spanning_set_corrupts_neighbour :
    (pushAll 9 (PackedIntegers.mk [] 0) [0, 0, 0, 0, 0]).2 = none ∧
    exampleFiveZeros = PackedIntegers.mk [0, 4294959104] 5 ∧
    get 9 exampleFiveZeros 4 = some 0 ∧
    (set 9 exampleFiveZeros 3 0).2 = none ∧
    (set 9 exampleFiveZeros 3 0).1.len = 5 ∧
    get 9 (set 9 exampleFiveZeros 3 0).1 3 = some 0 ∧
    get 9 (set 9 exampleFiveZeros 3 0).1 4 = some 511 := by
  decide

/-- The width-9 array holding `[0, 0, 0, 0]`, built by four pushes. -/
def exampleFourZeros : PackedIntegers :=
  (pushAll 9 (PackedIntegers.mk [] 0) [0, 0, 0, 0]).1

/-- C3 (code bug): at width 9, inserting 0 at index 0 of `[0, 0, 0, 0]` and
then removing index 0 returns the inserted value but leaves the array as
`[0, 0, 0, 511]` instead of restoring `[0, 0, 0, 0]`: the shift loops of
`insert` and `remove` go through the spanning write path of
`set_unchecked`, which corrupts the element sharing the high cell. -/
theorem c3_insert_remove_not_inverse :
    elements 9 exampleFourZeros = [0, 0, 0, 0] ∧
    (insert 9 exampleFourZeros 0 0).2 = none ∧
    (remove 9 (insert 9 exampleFourZeros 0 0).1 0).2.1 = none ∧
    (remove 9 (insert 9 exampleFourZeros 0 0).1 0).2.2 = some 0 ∧
    (remove 9 (insert 9 exampleFourZeros 0 0).1 0).1.len = 4 ∧
    elements 9 (remove 9 (insert 9 exampleFourZeros 0 0).1 0).1 =
      [0, 0, 0, 511] := by
  decide

end PackedSpec
